import Mathlib

/-!
Verification of the go-wrr smooth weighted round-robin scheduler.

Shallow embedding of `wrr.go` (package `wrr`, repository opencoff/go-wrr).

Modelling conventions:
* Go `int` is modelled as `Int` (mathematical integers).
* Go slices of `int` that are only read through indices are modelled as
  `List Int`; the mutable credit slice `cur` is modelled as a function
  `Nat → Int` updated with `Function.update` (out-of-range positions are
  never touched by the Go code because every loop ranges over valid
  indices).
* The `atomic.Uint64` cursor wraps modulo `2 ^ 64`, exactly as Go's
  unsigned arithmetic does; `Next` is modelled as a function of the call
  number (the n-th sequential call observes pre-increment counter value
  `(n - 1) mod 2 ^ 64`).
* The `uint16(best)` narrowing conversion is modelled as `best % 65536`.
* Errors (`fmt.Errorf` results) are modelled as `Except String`; the
  error strings reproduce the formatted Go messages.
-/

namespace Wrr

/-- Go source, `wrr.go`:
```
func gcd(a, b int) int {
    for b != 0 {
        a, b = b, a%b
    }
    return a
}
```
Go `%` on `int` is truncated remainder, i.e. `Int.tmod`.  The loop is
modelled with an explicit iteration bound: `|b|` strictly decreases on
every iteration, so `b.natAbs + 1` iterations always suffice
(`gcd_unfold` below proves that this definition satisfies the loop's
recurrence, so the bound is invisible). -/
def gcdAux : Nat → Int → Int → Int
  | 0, a, _ => a
  | fuel + 1, a, b => if b = 0 then a else gcdAux fuel b (a.tmod b)

/-- The Go `gcd` function. -/
def gcd (a b : Int) : Int := gcdAux (b.natAbs + 1) a b

/-- Go source, `wrr.go`:
```
func normalize(w []int, tot int) ([]int, int) {
    g := w[0]
    for _, z := range w[1:] {
        g = gcd(g, z)
    }
    if g > 1 {
        tot = 0
        for i := range w {
            w[i] /= g
            tot += w[i]
        }
    }
    return w, tot
}
```
`w[0]` is modelled as `w.headD 0` (all call sites pass a non-empty
slice); Go `/=` on `int` is truncating division `Int.tdiv`; the
`tot += w[i]` loop is the left fold of addition over the updated
slice. -/
def normalize (w : List Int) (tot : Int) : List Int × Int :=
  let g := (w.drop 1).foldl gcd (w.headD 0)
  if 1 < g then
    let w2 := w.map (fun z => z.tdiv g)
    (w2, w2.foldl (· + ·) 0)
  else
    (w, tot)

/-- The weight-validation loop of `New` (Go source, `wrr.go`):
```
for i := range slots {
    s := slots[i]
    w := s.Weight()
    if w <= 0 {
        return nil, fmt.Errorf("wrr: slot index %d: bad weight %d", i, w)
    }
    eff[i] = w
    tot += w
}
```
The argument `i` is the index of the first element of the remaining
list; on success it returns the effective-weight slice (`eff`) and the
accumulated total. -/
def checkWeights : List Int → Nat → Except String (List Int × Int)
  | [], _ => .ok ([], 0)
  | w :: rest, i =>
    if w ≤ 0 then
      .error ("wrr: slot index " ++ toString i ++ ": bad weight " ++ toString w)
    else
      match checkWeights rest (i + 1) with
      | .error e => .error e
      | .ok (eff, tot) => .ok (w :: eff, w + tot)

/-- One pass of the inner selection loop of `New` (Go source, `wrr.go`):
```
var best int
for j := range eff {
    cur[j] += eff[j]
    if cur[j] > cur[best] {
        best = j
    }
}
```
State is the credit function together with the current `best` index. -/
def scanBest (eff : List Int) (cur : Nat → Int) : (Nat → Int) × Nat :=
  (List.range eff.length).foldl
    (fun s j =>
      let c := Function.update s.1 j (s.1 j + eff.getD j 0)
      (c, if c j > c s.2 then j else s.2))
    (cur, 0)

/-- The table-filling loop of `New` (Go source, `wrr.go`):
```
for i := range seq {
    ... inner loop (scanBest) ...
    seq[i] = uint16(best)
    cur[best] -= tot
}
```
`k` is the number of positions still to fill; `uint16(best)` is the
narrowing conversion `best % 65536`. -/
def fillLoop (eff : List Int) (tot : Int) : Nat → (Nat → Int) → List Nat
  | 0, _ => []
  | k + 1, cur =>
    let s := scanBest eff cur
    (s.2 % 65536) :: fillLoop eff tot k (Function.update s.1 s.2 (s.1 s.2 - tot))

/-- The compiled scheduler (Go type `WRR[T]`): the owned copy of the
slots and the compiled cycle `seq`.  The atomic cursor is not part of
the value; `Next` is modelled as a function of the call number. -/
structure WRR (α : Type) where
  slots : List α
  seq : List Nat
  deriving DecidableEq, Repr

/-- Decidable equality of modelled construction results, so that
concrete runs of `New` can be checked by `decide`. -/
instance {ε α : Type} [DecidableEq ε] [DecidableEq α] : DecidableEq (Except ε α)
  | .error a, .error b =>
    if h : a = b then .isTrue (by rw [h])
    else .isFalse (fun hc => h (by cases hc; rfl))
  | .error _, .ok _ => .isFalse (fun hc => by cases hc)
  | .ok _, .error _ => .isFalse (fun hc => by cases hc)
  | .ok a, .ok b =>
    if h : a = b then .isTrue (by rw [h])
    else .isFalse (fun hc => h (by cases hc; rfl))

/-- Go source, `wrr.go`:
```
func New[T Weighted](slots []T) (*WRR[T], error) {
    n := len(slots)
    if n == 0 {
        return nil, fmt.Errorf("wrr: no slots to weight")
    }
    if n >= 65536 {
        return nil, fmt.Errorf("wrr: too many WRR slots (%d)", n)
    }
    ... validation loop (checkWeights) ...
    eff, tot = normalize(eff, tot)
    seq := make([]uint16, tot)
    ... filling loop (fillLoop), credits start at zero ...
    w := &WRR[T]{slots: make([]T, n), seq: seq}
    copy(w.slots, slots)
    return w, nil
}
```
The generic constraint `T Weighted` is modelled by an explicit weight
function `weight : α → Int`. -/
def New {α : Type} (weight : α → Int) (slots : List α) : Except String (WRR α) :=
  let n := slots.length
  if n = 0 then .error "wrr: no slots to weight"
  else if 65536 ≤ n then
    .error ("wrr: too many WRR slots (" ++ toString n ++ ")")
  else
    match checkWeights (slots.map weight) 0 with
    | .error e => .error e
    | .ok (eff0, tot0) =>
      let p := normalize eff0 tot0
      .ok ⟨slots, fillLoop p.1 p.2 p.2.toNat (fun _ => 0)⟩

/-- The index into the compiled cycle observed by the c-th sequential
call of `Next` (Go source, `wrr.go`):
```
i := (w.next.Add(1) - 1) % uint64(len(w.seq))
```
The counter starts at 0 and wraps modulo `2 ^ 64`, so the c-th call's
`Add(1)` returns `c % 2 ^ 64` and the pre-increment value is
`(c - 1) % 2 ^ 64` (for `c ≥ 1`). -/
def nextIndex (seqLen : Nat) (c : Nat) : Nat := ((c - 1) % 2 ^ 64) % seqLen

/-- Go source, `wrr.go`:
```
func (w *WRR[T]) Next() T {
    i := (w.next.Add(1) - 1) % uint64(len(w.seq))
    j := w.seq[i]
    return w.slots[j]
}
```
modelled as a function of the call number `c ≥ 1`.  Both slice reads
are modelled with `getElem?` so that an out-of-bounds access (a Go
panic) is observable as `none`; likewise `% 0` (a Go panic) surfaces
as an out-of-bounds read because `Nat.mod x 0 = x`. -/
def Next? {α : Type} (w : WRR α) (c : Nat) : Option α :=
  match w.seq[nextIndex w.seq.length c]? with
  | some j => w.slots[j]?
  | none => none

/-! ## Derived definitions used by the development below -/

/-- The credit function after the `cur[j] += eff[j]` updates of one
pass (positions `j ≥ eff.length` receive `+ 0` and are unchanged). -/
def addEff (eff : List Int) (cur : Nat → Int) : Nat → Int :=
  fun j => cur j + eff.getD j 0

/-- First index of the maximum of `c` over `0, …, m - 1` (0 if `m = 0`):
the running argmax with strict displacement, exactly as the Go loop
computes `best`. -/
def fmiAux (c : Nat → Int) : Nat → Nat
  | 0 => 0
  | m + 1 => if c m > c (fmiAux c m) then m else fmiAux c m

/-- The state of the Go inner loop after processing indices `0, …, m-1`:
the first `m` credits are updated, the rest untouched. -/
def curUpTo (eff : List Int) (cur : Nat → Int) (m : Nat) : Nat → Int :=
  fun j => if j < m then cur j + eff.getD j 0 else cur j

/-- The winner of one pass (first index of maximal updated credit). -/
def stepBest (eff : List Int) (cur : Nat → Int) : Nat :=
  fmiAux (addEff eff cur) eff.length

/-- The credit state after one full pass: all credits bumped by their
effective weights, then `tot` subtracted from the winner. -/
def stepCur (eff : List Int) (tot : Int) (cur : Nat → Int) : Nat → Int :=
  Function.update (addEff eff cur) (stepBest eff cur)
    (addEff eff cur (stepBest eff cur) - tot)

/-- GCD of all entries of a list (0 for the empty list). -/
def allGcd (w : List Int) : Nat :=
  w.foldr (fun z g => Nat.gcd z.natAbs g) 0

/-- The effective weights: every weight divided by the GCD of all
weights. -/
def effWeights (w : List Int) : List Int :=
  w.map (fun z => z.tdiv (allGcd w : Int))

def IsSpecTrace (eff : List Int) (T : Int) : (Nat → Int) → List Nat → Prop
  | _, [] => True
  | cred, w :: rest =>
    w < eff.length ∧
    (∀ i < eff.length, addEff eff cred i ≤ addEff eff cred w) ∧
    (∀ i < w, addEff eff cred i < addEff eff cred w) ∧
    IsSpecTrace eff T (Function.update (addEff eff cred) w (addEff eff cred w - T)) rest

/-- The credit state before filling position `m` (positions are filled
in order starting from position 0). -/
def curAt (eff : List Int) (tot : Int) (cur0 : Nat → Int) : Nat → (Nat → Int)
  | 0 => cur0
  | m + 1 => stepCur eff tot (curAt eff tot cur0 m)

/-! ## Characterisation of the inner selection loop

`scanBest` first adds every effective weight to the corresponding
credit and simultaneously tracks the first index attaining the maximum
updated credit (ties broken towards the smaller index, because only a
strictly greater credit displaces `best`). -/

/-! ## Properties of the Go gcd loop -/

theorem natAbs_tmod_lt (a : Int) {b : Int} (hb : b ≠ 0) :
    (a.tmod b).natAbs < b.natAbs := by
  cases a with
  | ofNat m =>
    cases b with
    | ofNat n =>
      have hn : n ≠ 0 := by simpa using hb
      simpa [Int.tmod] using Nat.mod_lt m (Nat.pos_of_ne_zero hn)
    | negSucc n =>
      simpa [Int.tmod] using Nat.mod_lt m (Nat.succ_pos n)
  | negSucc m =>
    cases b with
    | ofNat n =>
      have hn : n ≠ 0 := by simpa using hb
      simpa [Int.tmod] using Nat.mod_lt (m + 1) (Nat.pos_of_ne_zero hn)
    | negSucc n =>
      simpa [Int.tmod] using Nat.mod_lt (m + 1) (Nat.succ_pos n)

theorem gcdAux_fuel_irrel (fuel₁ : Nat) :
    ∀ (fuel₂ : Nat) (a b : Int), b.natAbs < fuel₁ → b.natAbs < fuel₂ →
      gcdAux fuel₁ a b = gcdAux fuel₂ a b := by
  induction fuel₁ with
  | zero => intro fuel₂ a b h; omega
  | succ f ih =>
    intro fuel₂ a b h₁ h₂
    match fuel₂, h₂ with
    | f₂ + 1, h₂ =>
      by_cases hb : b = 0
      · simp [gcdAux, hb]
      · simp only [gcdAux, hb, if_false]
        exact ih f₂ b (a.tmod b)
          (lt_of_lt_of_le (natAbs_tmod_lt a hb) (by omega))
          (lt_of_lt_of_le (natAbs_tmod_lt a hb) (by omega))

/-- The fuelled definition satisfies the Go loop's recurrence exactly. -/
theorem gcd_unfold (a b : Int) :
    gcd a b = if b = 0 then a else gcd b (a.tmod b) := by
  by_cases hb : b = 0
  · simp [gcd, gcdAux, hb]
  · simp only [gcd, gcdAux, hb, if_false]
    exact gcdAux_fuel_irrel _ _ b (a.tmod b)
      (natAbs_tmod_lt a hb) (Nat.lt_succ_self _)

/-- On non-negative arguments the Go `gcd` computes `Nat.gcd`. -/
theorem gcd_eq_natGcd (m k : Nat) : gcd (m : Int) (k : Int) = (Nat.gcd m k : Int) := by
  induction k using Nat.strong_induction_on generalizing m with
  | _ k ih =>
    rw [gcd_unfold]
    by_cases hk : k = 0
    · simp [hk]
    · have hk0 : (k : Int) ≠ 0 := by exact_mod_cast hk
      have htm : (m : Int).tmod (k : Int) = ((m % k : Nat) : Int) := by
        simp [Int.tmod]
      rw [if_neg hk0, htm, ih (m % k) (Nat.mod_lt m (Nat.pos_of_ne_zero hk)) k]
      rw [Nat.gcd_comm k (m % k), ← Nat.gcd_rec k m, Nat.gcd_comm k m]

theorem fmiAux_le (c : Nat → Int) : ∀ m : Nat, fmiAux c m ≤ max (m - 1) 0
  | 0 => Nat.le_refl _
  | m + 1 => by
    simp only [fmiAux]
    split
    · simp
    · exact le_trans (fmiAux_le c m) (by omega)

theorem fmiAux_lt (c : Nat → Int) (m : Nat) (hm : 0 < m) : fmiAux c m < m := by
  have := fmiAux_le c m
  omega

theorem fmiAux_max (c : Nat → Int) : ∀ m : Nat, ∀ j < m, c j ≤ c (fmiAux c m) := by
  intro m
  induction m with
  | zero => intro j hj; omega
  | succ m ih =>
    intro j hj
    simp only [fmiAux]
    split
    · rename_i h
      rcases Nat.lt_succ_iff_lt_or_eq.mp hj with h' | h'
      · exact le_trans (ih j h') (le_of_lt h)
      · exact le_of_eq (by rw [h'])
    · rename_i h
      rcases Nat.lt_succ_iff_lt_or_eq.mp hj with h' | h'
      · exact ih j h'
      · subst h'; omega


theorem fmiAux_first (c : Nat → Int) : ∀ m : Nat, ∀ j < fmiAux c m, c j < c (fmiAux c m) := by
  intro m
  induction m with
  | zero => intro j hj; simp [fmiAux] at hj
  | succ m ih =>
    intro j hj
    simp only [fmiAux] at hj ⊢
    split
    · rename_i h
      split at hj
      · exact lt_of_le_of_lt (fmiAux_max c m j hj) h
      · omega
    · rename_i h
      split at hj
      · omega
      · exact ih j hj

theorem curUpTo_zero (eff : List Int) (cur : Nat → Int) : curUpTo eff cur 0 = cur := by
  funext j; simp [curUpTo]

theorem getD_oob {α : Type} [Inhabited α] (l : List α) (j : Nat) (d : α)
    (h : l.length ≤ j) : l.getD j d = d := by
  simp [List.getElem?_eq_none h]

theorem curUpTo_full (eff : List Int) (cur : Nat → Int) (m : Nat)
    (hm : eff.length ≤ m) : curUpTo eff cur m = addEff eff cur := by
  funext j
  by_cases hj : j < m
  · simp [curUpTo, addEff, hj]
  · have h0 : eff.getD j 0 = 0 := getD_oob eff j 0 (by omega)
    simp only [curUpTo, addEff, if_neg hj, h0, add_zero]

theorem scanBest_prefix (eff : List Int) (cur : Nat → Int) :
    ∀ m : Nat, m ≤ eff.length →
      (List.range m).foldl
        (fun s j =>
          let c := Function.update s.1 j (s.1 j + eff.getD j 0)
          (c, if c j > c s.2 then j else s.2))
        (cur, 0)
      = (curUpTo eff cur m, fmiAux (addEff eff cur) m) := by
  intro m
  induction m with
  | zero =>
    intro _
    simp [List.range_zero, List.foldl_nil, curUpTo_zero, fmiAux]
  | succ m ih =>
    intro hm
    rw [List.range_succ, List.foldl_append, ih (by omega), List.foldl_cons, List.foldl_nil]
    have hb : fmiAux (addEff eff cur) m ≤ m := by
      have := fmiAux_le (addEff eff cur) m
      omega
    have hcur : Function.update (curUpTo eff cur m) m (curUpTo eff cur m m + eff.getD m 0)
        = curUpTo eff cur (m + 1) := by
      funext j
      by_cases hj : j = m
      · subst hj
        simp [Function.update, curUpTo]
      · simp only [Function.update, curUpTo]
        split
        · omega
        · by_cases hj2 : j < m <;> by_cases hj3 : j < m + 1 <;> simp_all <;> omega
    simp only [hcur]
    have hread : ∀ j ≤ m, curUpTo eff cur (m + 1) j = addEff eff cur j := by
      intro j hj
      simp only [curUpTo, addEff]
      rw [if_pos (by omega)]
    congr 1
    have hrhs : fmiAux (addEff eff cur) (m + 1)
        = if addEff eff cur m > addEff eff cur (fmiAux (addEff eff cur) m) then m
          else fmiAux (addEff eff cur) m := rfl
    rw [hrhs, ← hread m (Nat.le_refl m), ← hread _ hb]

/-- The inner loop equals: update all credits, then take the first
argmax of the updated credits. -/
theorem scanBest_eq (eff : List Int) (cur : Nat → Int) :
    scanBest eff cur = (addEff eff cur, fmiAux (addEff eff cur) eff.length) := by
  rw [scanBest, scanBest_prefix eff cur eff.length (Nat.le_refl _),
    curUpTo_full eff cur eff.length (Nat.le_refl _)]

theorem fillLoop_succ (eff : List Int) (tot : Int) (k : Nat) (cur : Nat → Int) :
    fillLoop eff tot (k + 1) cur
      = (stepBest eff cur % 65536) :: fillLoop eff tot k (stepCur eff tot cur) := by
  rw [fillLoop, scanBest_eq]
  rfl

/-! ## The proportionality invariant

Credits start at zero; each pass adds every effective weight and
subtracts `tot` from the single winner, so after `k` passes
`cur j = k * eff j - (count of j among emitted winners) * tot`, the
per-slot credits never drop below `1 - tot` (the winner's credit is at
least 1 before the subtraction, because the credits sum to `tot` just
after the additions), and the credits always sum to zero. -/

theorem stepBest_lt (eff : List Int) (cur : Nat → Int) (hn : 0 < eff.length) :
    stepBest eff cur < eff.length :=
  fmiAux_lt _ _ hn

theorem stepBest_max (eff : List Int) (cur : Nat → Int) :
    ∀ j < eff.length, addEff eff cur j ≤ addEff eff cur (stepBest eff cur) :=
  fmiAux_max _ _

theorem stepCur_best (eff : List Int) (tot : Int) (cur : Nat → Int) :
    stepCur eff tot cur (stepBest eff cur)
      = cur (stepBest eff cur) + eff.getD (stepBest eff cur) 0 - tot := by
  simp [stepCur, addEff]

theorem stepCur_ne (eff : List Int) (tot : Int) (cur : Nat → Int) (j : Nat)
    (hj : j ≠ stepBest eff cur) :
    stepCur eff tot cur j = cur j + eff.getD j 0 := by
  simp [stepCur, Function.update_noteq hj, addEff]

theorem sum_addEff (eff : List Int) (tot : Int) (cur : Nat → Int)
    (htot : ∑ j in Finset.range eff.length, eff.getD j 0 = tot)
    (hsum : ∑ j in Finset.range eff.length, cur j = 0) :
    ∑ j in Finset.range eff.length, addEff eff cur j = tot := by
  simp only [addEff]
  rw [Finset.sum_add_distrib, hsum, htot, zero_add]

theorem one_le_best (eff : List Int) (tot : Int) (cur : Nat → Int)
    (htot1 : 1 ≤ tot)
    (htot : ∑ j in Finset.range eff.length, eff.getD j 0 = tot)
    (hsum : ∑ j in Finset.range eff.length, cur j = 0) :
    1 ≤ addEff eff cur (stepBest eff cur) := by
  by_contra hcon
  push_neg at hcon
  have hall : ∀ j ∈ Finset.range eff.length, addEff eff cur j ≤ 0 := by
    intro j hj
    have hmax := stepBest_max eff cur j (Finset.mem_range.mp hj)
    omega
  have hle : ∑ j in Finset.range eff.length, addEff eff cur j ≤ 0 :=
    Finset.sum_nonpos hall
  rw [sum_addEff eff tot cur htot hsum] at hle
  omega

theorem sum_stepCur (eff : List Int) (tot : Int) (cur : Nat → Int)
    (hn : 0 < eff.length)
    (htot : ∑ j in Finset.range eff.length, eff.getD j 0 = tot)
    (hsum : ∑ j in Finset.range eff.length, cur j = 0) :
    ∑ j in Finset.range eff.length, stepCur eff tot cur j = 0 := by
  have hbn : stepBest eff cur ∈ Finset.range eff.length :=
    Finset.mem_range.mpr (stepBest_lt eff cur hn)
  simp only [stepCur]
  rw [Finset.sum_update_of_mem hbn]
  have hsplit : ∑ j in Finset.range eff.length \ {stepBest eff cur}, addEff eff cur j
      = (∑ j in Finset.range eff.length, addEff eff cur j)
        - addEff eff cur (stepBest eff cur) := by
    rw [Finset.sum_eq_sum_diff_singleton_add hbn (addEff eff cur)]
    ring
  rw [hsplit, sum_addEff eff tot cur htot hsum]
  ring

theorem fillLoop_invariant (eff : List Int) (tot : Int)
    (hn : 0 < eff.length) (hn2 : eff.length < 65536)
    (heff : ∀ j < eff.length, 1 ≤ eff.getD j 0)
    (htot : ∑ j in Finset.range eff.length, eff.getD j 0 = tot)
    (htot1 : 1 ≤ tot) :
    ∀ (k : Nat) (cur : Nat → Int),
      (∀ j < eff.length, 1 - tot ≤ cur j) →
      (∑ j in Finset.range eff.length, cur j = 0) →
      (fillLoop eff tot k cur).length = k ∧
      (∀ x ∈ fillLoop eff tot k cur, x < eff.length) ∧
      (∀ j < eff.length,
        1 - tot ≤ cur j + k * eff.getD j 0
          - ((fillLoop eff tot k cur).count j) * tot) := by
  intro k
  induction k with
  | zero =>
    intro cur hlow _
    refine ⟨rfl, by simp [fillLoop], ?_⟩
    intro j hj
    simpa [fillLoop] using hlow j hj
  | succ k ih =>
    intro cur hlow hsum
    have hbn : stepBest eff cur < eff.length := stepBest_lt eff cur hn
    have hwin : 1 ≤ addEff eff cur (stepBest eff cur) :=
      one_le_best eff tot cur htot1 htot hsum
    have hlow2 : ∀ j < eff.length, 1 - tot ≤ stepCur eff tot cur j := by
      intro j hj
      by_cases hjb : j = stepBest eff cur
      · rw [hjb, stepCur_best]
        have : addEff eff cur (stepBest eff cur)
            = cur (stepBest eff cur) + eff.getD (stepBest eff cur) 0 := rfl
        omega
      · rw [stepCur_ne eff tot cur j hjb]
        have h1 := hlow j hj
        have h2 := heff j hj
        omega
    have hsum2 := sum_stepCur eff tot cur hn htot hsum
    obtain ⟨ihlen, ihmem, ihbound⟩ := ih (stepCur eff tot cur) hlow2 hsum2
    have hmod : stepBest eff cur % 65536 = stepBest eff cur :=
      Nat.mod_eq_of_lt (by omega)
    rw [fillLoop_succ, hmod]
    refine ⟨by simp [ihlen], ?_, ?_⟩
    · intro x hx
      rcases List.mem_cons.mp hx with h | h
      · rw [h]; exact hbn
      · exact ihmem x h
    · intro j hj
      have hcount : (stepBest eff cur :: fillLoop eff tot k (stepCur eff tot cur)).count j
          = (fillLoop eff tot k (stepCur eff tot cur)).count j
            + if stepBest eff cur = j then 1 else 0 := by
        simp [List.count_cons]
      have hbase := ihbound j hj
      rw [hcount]
      by_cases hjb : j = stepBest eff cur
      · rw [if_pos hjb.symm]
        rw [hjb] at hbase ⊢
        rw [stepCur_best] at hbase
        push_cast at hbase ⊢
        nlinarith [hbase]
      · rw [if_neg (fun h => hjb h.symm)]
        rw [stepCur_ne eff tot cur j hjb] at hbase
        push_cast at hbase ⊢
        nlinarith [hbase]

/-- For a list of indices all below `n`, the per-index occurrence
counts sum to the length of the list. -/
theorem sum_count_eq_length (n : Nat) :
    ∀ L : List Nat, (∀ x ∈ L, x < n) →
      ∑ j in Finset.range n, L.count j = L.length := by
  intro L
  induction L with
  | nil => intro _; simp
  | cons x L ih =>
    intro h
    have hx : x ∈ Finset.range n := Finset.mem_range.mpr (h x (List.mem_cons_self x L))
    have hL : ∀ y ∈ L, y < n := fun y hy => h y (List.mem_cons_of_mem x hy)
    calc ∑ j in Finset.range n, (x :: L).count j
        = ∑ j in Finset.range n, (L.count j + if x = j then 1 else 0) := by
          apply Finset.sum_congr rfl
          intro j _
          simp [List.count_cons]
      _ = (∑ j in Finset.range n, L.count j)
            + ∑ j in Finset.range n, (if x = j then 1 else 0) := by
          rw [Finset.sum_add_distrib]
      _ = L.length + 1 := by
          rw [ih hL]
          congr 1
          simp [Finset.sum_ite_eq, hx]
      _ = (x :: L).length := by simp

/-- After exactly `tot` passes starting from all-zero credits, every
index `j` has been emitted exactly `eff j` times, and the emitted list
has length `tot`. -/
theorem fillLoop_counts (eff : List Int) (tot : Int)
    (hn : 0 < eff.length) (hn2 : eff.length < 65536)
    (heff : ∀ j < eff.length, 1 ≤ eff.getD j 0)
    (htot : ∑ j in Finset.range eff.length, eff.getD j 0 = tot)
    (htot1 : 1 ≤ tot) :
    (fillLoop eff tot tot.toNat (fun _ => 0)).length = tot.toNat ∧
    (∀ x ∈ fillLoop eff tot tot.toNat (fun _ => 0), x < eff.length) ∧
    (∀ j < eff.length,
      ((fillLoop eff tot tot.toNat (fun _ => 0)).count j : Int) = eff.getD j 0) := by
  obtain ⟨hlen, hmem, hbound⟩ :=
    fillLoop_invariant eff tot hn hn2 heff htot htot1 tot.toNat (fun _ => 0)
      (fun j _ => by show (1 : Int) - tot ≤ 0; omega) (by simp)
  refine ⟨hlen, hmem, ?_⟩
  have htotN : ((tot.toNat : Int)) = tot := Int.toNat_of_nonneg (by omega)
  have hle : ∀ j < eff.length,
      ((fillLoop eff tot tot.toNat (fun _ => 0)).count j : Int) ≤ eff.getD j 0 := by
    intro j hj
    have h := hbound j hj
    rw [htotN] at h
    simp only [zero_add] at h
    nlinarith [h]
  have hsumcount : ∑ j in Finset.range eff.length,
      (((fillLoop eff tot tot.toNat (fun _ => 0)).count j : Int))
      = tot := by
    have hNat := sum_count_eq_length eff.length _ hmem
    have : ((∑ j in Finset.range eff.length,
        (fillLoop eff tot tot.toNat (fun _ => 0)).count j : Nat) : Int)
        = ((tot.toNat : Nat) : Int) := by
      rw [hNat, hlen]
    push_cast at this
    rw [htotN] at this
    exact this
  intro j hj
  by_contra hne
  have hlt : ((fillLoop eff tot tot.toNat (fun _ => 0)).count j : Int)
      < eff.getD j 0 := lt_of_le_of_ne (hle j hj) hne
  have hstrict : ∑ i in Finset.range eff.length,
      (((fillLoop eff tot tot.toNat (fun _ => 0)).count i : Int))
      < ∑ i in Finset.range eff.length, eff.getD i 0 := by
    apply Finset.sum_lt_sum
    · intro i hi
      exact hle i (Finset.mem_range.mp hi)
    · exact ⟨j, Finset.mem_range.mpr hj, hlt⟩
  rw [hsumcount, htot] at hstrict
  omega

/-! ## The normalisation layer

`allGcd` is the mathematical greatest common divisor of a list of
integers (via `Nat.gcd` on absolute values); on the positive weight
lists that reach it, the fold in `normalize` computes exactly this
value, and the effective weight of a slot is its weight divided
(exactly) by `allGcd`. -/

theorem foldl_gcd_cast (l : List Int) :
    ∀ g : Nat, (∀ z ∈ l, 0 ≤ z) →
      l.foldl gcd (g : Int) = ((l.foldl (fun acc z => Nat.gcd acc z.natAbs) g : Nat) : Int) := by
  induction l with
  | nil => intro g _; rfl
  | cons z l ih =>
    intro g hpos
    have hz : 0 ≤ z := hpos z (List.mem_cons_self z l)
    have hz2 : ((z.natAbs : Nat) : Int) = z := Int.natAbs_of_nonneg hz
    rw [List.foldl_cons, List.foldl_cons]
    have h1 : gcd (g : Int) z = ((Nat.gcd g z.natAbs : Nat) : Int) := by
      conv_lhs => rw [← hz2]
      rw [gcd_eq_natGcd]
    rw [h1]
    exact ih (Nat.gcd g z.natAbs) (fun y hy => hpos y (List.mem_cons_of_mem z hy))

theorem foldl_natGcd_eq (l : List Nat) :
    ∀ g : Nat, l.foldl Nat.gcd g = Nat.gcd g (l.foldr Nat.gcd 0) := by
  induction l with
  | nil => intro g; simp
  | cons z l ih =>
    intro g
    rw [List.foldl_cons, List.foldr_cons, ih (Nat.gcd g z), Nat.gcd_assoc]

theorem go_gcd_eq_allGcd (w : List Int) (hne : w ≠ [])
    (hpos : ∀ z ∈ w, 0 ≤ z) :
    (w.drop 1).foldl gcd (w.headD 0) = (allGcd w : Int) := by
  match w, hne with
  | z :: l, _ =>
    have hz : 0 ≤ z := hpos z (List.mem_cons_self z l)
    have hz2 : ((z.natAbs : Nat) : Int) = z := Int.natAbs_of_nonneg hz
    have hl : ∀ y ∈ l, 0 ≤ y := fun y hy => hpos y (List.mem_cons_of_mem z hy)
    have h1 : (z :: l).headD 0 = ((z.natAbs : Nat) : Int) := by
      rw [hz2]; rfl
    rw [List.drop_one, List.tail_cons, h1, foldl_gcd_cast l z.natAbs hl]
    have h2 : l.foldl (fun acc y => Nat.gcd acc y.natAbs) z.natAbs
        = (l.map Int.natAbs).foldl Nat.gcd z.natAbs := by
      rw [List.foldl_map]
    have h3 : (l.map Int.natAbs).foldr Nat.gcd 0
        = l.foldr (fun y g => Nat.gcd y.natAbs g) 0 := by
      rw [List.foldr_map]
    rw [h2, foldl_natGcd_eq, h3]
    rfl

theorem allGcd_dvd (w : List Int) : ∀ z ∈ w, ((allGcd w : Nat) : Int) ∣ z := by
  induction w with
  | nil => intro z hz; cases hz
  | cons y l ih =>
    intro z hz
    have hcons : allGcd (y :: l) = Nat.gcd y.natAbs (allGcd l) := rfl
    rcases List.mem_cons.mp hz with h | h
    · rw [h, hcons]
      have h1 : Nat.gcd y.natAbs (allGcd l) ∣ y.natAbs := Nat.gcd_dvd_left _ _
      have h2 : ((Nat.gcd y.natAbs (allGcd l) : Nat) : Int) ∣ ((y.natAbs : Nat) : Int) :=
        Int.natCast_dvd_natCast.mpr h1
      exact Int.dvd_natAbs.mp h2
    · rw [hcons]
      have h1 : Nat.gcd y.natAbs (allGcd l) ∣ allGcd l := Nat.gcd_dvd_right _ _
      exact dvd_trans (Int.natCast_dvd_natCast.mpr h1) (ih z h)

theorem allGcd_pos (w : List Int) (hne : w ≠ []) (hpos : ∀ z ∈ w, 0 < z) :
    0 < allGcd w := by
  match w, hne with
  | z :: l, _ =>
    have hz : 0 < z := hpos z (List.mem_cons_self z l)
    have hz2 : 0 < z.natAbs := Int.natAbs_pos.mpr (by omega)
    show 0 < Nat.gcd z.natAbs (allGcd l)
    exact Nat.gcd_pos_of_pos_left _ hz2

theorem foldl_add_eq_sum (l : List Int) : l.foldl (· + ·) 0 = l.sum := by
  have h : ∀ (l : List Int) (a : Int), l.foldl (· + ·) a = a + l.sum := by
    intro l
    induction l with
    | nil => intro a; simp
    | cons z l ih => intro a; rw [List.foldl_cons, List.sum_cons, ih]; ring
  rw [h l 0, zero_add]

/-- On a non-empty positive weight list with its sum as `tot`,
`normalize` returns the effective weights and their sum. -/
theorem normalize_eq (w : List Int) (hne : w ≠ []) (hpos : ∀ z ∈ w, 0 < z) :
    normalize w w.sum = (effWeights w, (effWeights w).sum) := by
  have hnn : ∀ z ∈ w, 0 ≤ z := fun z hz => le_of_lt (hpos z hz)
  simp only [normalize]
  rw [go_gcd_eq_allGcd w hne hnn]
  by_cases hg : 1 < ((allGcd w : Nat) : Int)
  · rw [if_pos hg, foldl_add_eq_sum]
    rfl
  · rw [if_neg hg]
    have hg1 : allGcd w = 1 := by
      have := allGcd_pos w hne hpos
      omega
    have heq : effWeights w = w := by
      rw [effWeights, hg1]
      simp
    rw [heq]

/-! ## Validation and the constructor pipeline -/

theorem checkWeights_ok : ∀ (l : List Int) (i : Nat), (∀ w ∈ l, 0 < w) →
    checkWeights l i = .ok (l, l.sum) := by
  intro l
  induction l with
  | nil => intro i _; rfl
  | cons w rest ih =>
    intro i hpos
    have hw : 0 < w := hpos w (List.mem_cons_self w rest)
    have hrest : ∀ y ∈ rest, 0 < y := fun y hy => hpos y (List.mem_cons_of_mem w hy)
    rw [checkWeights, if_neg (by omega), ih (i + 1) hrest]
    simp

theorem checkWeights_error : ∀ (l : List Int) (i i0 : Nat), i0 < l.length →
    (∀ j < i0, 0 < l.getD j 0) → l.getD i0 0 ≤ 0 →
    checkWeights l i = .error
      ("wrr: slot index " ++ toString (i + i0) ++ ": bad weight " ++ toString (l.getD i0 0)) := by
  intro l
  induction l with
  | nil => intro i i0 h; simp at h
  | cons w rest ih =>
    intro i i0 h hfirst hbad
    match i0 with
    | 0 =>
      have hw : w ≤ 0 := by simpa using hbad
      rw [checkWeights, if_pos hw]
      simp
    | j0 + 1 =>
      have hw : 0 < w := by simpa using hfirst 0 (Nat.succ_pos j0)
      have hrest : ∀ j < j0, 0 < rest.getD j 0 := by
        intro j hj
        simpa using hfirst (j + 1) (by omega)
      have hbad2 : rest.getD j0 0 ≤ 0 := by simpa using hbad
      rw [checkWeights, if_neg (by omega),
        ih (i + 1) j0 (by simpa using h) hrest hbad2]
      have harith : i + 1 + j0 = i + (j0 + 1) := by omega
      rw [harith]
      have hget : (w :: rest).getD (j0 + 1) 0 = rest.getD j0 0 := by simp
      rw [hget]

theorem checkWeights_error_iff (l : List Int) (i : Nat) :
    (∃ e, checkWeights l i = .error e) ↔ ∃ w ∈ l, w ≤ 0 := by
  constructor
  · intro h
    by_contra hcon
    push_neg at hcon
    rw [checkWeights_ok l i (fun w hw => hcon w hw)] at h
    obtain ⟨e, he⟩ := h
    cases he
  · intro h
    induction l generalizing i with
    | nil => obtain ⟨w, hw, _⟩ := h; cases hw
    | cons w rest ih =>
      by_cases hw : w ≤ 0
      · exact ⟨_, by rw [checkWeights, if_pos hw]⟩
      · obtain ⟨y, hy, hy2⟩ := h
        rcases List.mem_cons.mp hy with hyw | hyr
        · exact absurd (hyw ▸ hy2) hw
        · obtain ⟨e, he⟩ := ih (i + 1) ⟨y, hyr, hy2⟩
          refine ⟨e, ?_⟩
          rw [checkWeights, if_neg hw, he]

theorem getD_eq_getElem {α : Type} [Inhabited α] (l : List α) (j : Nat) (d : α)
    (h : j < l.length) : l.getD j d = l[j] := by
  simp [List.getD_eq_getElem?_getD, List.getElem?_eq_getElem h]

theorem effWeights_length (w : List Int) : (effWeights w).length = w.length :=
  List.length_map w _

theorem effWeights_getD (w : List Int) (j : Nat) (hj : j < w.length) :
    (effWeights w).getD j 0 = (w.getD j 0).tdiv (allGcd w : Int) := by
  rw [getD_eq_getElem _ _ _ (by rw [effWeights_length]; exact hj),
    getD_eq_getElem _ _ _ hj]
  simp [effWeights]

theorem one_le_effWeights (w : List Int) (hne : w ≠ []) (hpos : ∀ z ∈ w, 0 < z) :
    ∀ j < w.length, 1 ≤ (effWeights w).getD j 0 := by
  intro j hj
  rw [effWeights_getD w j hj]
  have hmem : w.getD j 0 ∈ w := by
    rw [getD_eq_getElem _ _ _ hj]
    exact List.getElem_mem hj
  obtain ⟨q, hq⟩ := allGcd_dvd w (w.getD j 0) hmem
  have hg : 0 < allGcd w := allGcd_pos w hne hpos
  have hgz : ((allGcd w : Nat) : Int) ≠ 0 := by
    simp only [ne_eq, Nat.cast_eq_zero]
    omega
  rw [hq, Int.mul_tdiv_cancel_left q hgz]
  have hwj : 0 < w.getD j 0 := hpos _ hmem
  nlinarith [hq, hwj, hg]

theorem sum_range_getD (l : List Int) :
    ∑ j in Finset.range l.length, l.getD j 0 = l.sum := by
  induction l with
  | nil => simp
  | cons z l ih =>
    rw [List.length_cons, Finset.sum_range_succ', List.sum_cons]
    have h1 : ∀ j, (z :: l).getD (j + 1) 0 = l.getD j 0 := by intro j; simp
    have h2 : (z :: l).getD 0 0 = z := rfl
    simp only [h1, h2, ih]
    ring

theorem one_le_sum_eff (w : List Int) (hne : w ≠ []) (hpos : ∀ z ∈ w, 0 < z) :
    1 ≤ (effWeights w).sum := by
  have hn : 0 < w.length := List.length_pos.mpr hne
  have h := sum_range_getD (effWeights w)
  rw [effWeights_length] at h
  rw [← h]
  calc (1 : Int) ≤ (w.length : Int) := by exact_mod_cast hn
    _ = ∑ _j in Finset.range w.length, (1 : Int) := by simp
    _ ≤ ∑ j in Finset.range w.length, (effWeights w).getD j 0 :=
        Finset.sum_le_sum (fun j hj =>
          one_le_effWeights w hne hpos j (Finset.mem_range.mp hj))

/-- On valid input, `New` succeeds and builds the cycle by running the
filling loop for `tot` passes on the effective weights with all-zero
initial credits. -/
theorem New_ok_eq {α : Type} (weight : α → Int) (slots : List α)
    (hne : slots ≠ []) (hlen : slots.length < 65536)
    (hpos : ∀ s ∈ slots, 0 < weight s) :
    New weight slots = .ok ⟨slots,
      fillLoop (effWeights (slots.map weight)) ((effWeights (slots.map weight)).sum)
        ((effWeights (slots.map weight)).sum).toNat (fun _ => 0)⟩ := by
  have hn0 : slots.length ≠ 0 := fun h => hne (List.length_eq_zero.mp h)
  have hwpos : ∀ z ∈ slots.map weight, 0 < z := by
    intro z hz
    obtain ⟨s, hs, rfl⟩ := List.mem_map.mp hz
    exact hpos s hs
  have hmne : slots.map weight ≠ [] := by
    intro h
    exact hne (List.map_eq_nil_iff.mp h)
  simp only [New]
  rw [if_neg hn0, if_neg (by omega), checkWeights_ok _ 0 hwpos]
  show Except.ok (WRR.mk slots
      (fillLoop (normalize (slots.map weight) (slots.map weight).sum).1
        (normalize (slots.map weight) (slots.map weight).sum).2
        (normalize (slots.map weight) (slots.map weight).sum).2.toNat (fun _ => 0))) = _
  rw [normalize_eq _ hmne hwpos]

/-- Full functional specification of a successful construction: the
scheduler keeps the slots, the cycle length is the reduced total, every
cycle entry is a valid slot index, and each index `j` occurs exactly
`effWeights j` times. -/
theorem New_spec {α : Type} (weight : α → Int) (slots : List α)
    (hne : slots ≠ []) (hlen : slots.length < 65536)
    (hpos : ∀ s ∈ slots, 0 < weight s) :
    ∃ sched : WRR α, New weight slots = .ok sched ∧
      sched.slots = slots ∧
      sched.seq.length = ((effWeights (slots.map weight)).sum).toNat ∧
      (∀ x ∈ sched.seq, x < slots.length) ∧
      (∀ j < slots.length,
        ((sched.seq.count j : Nat) : Int) = (effWeights (slots.map weight)).getD j 0) := by
  have hmne : slots.map weight ≠ [] := fun h => hne (List.map_eq_nil_iff.mp h)
  have hwpos : ∀ z ∈ slots.map weight, 0 < z := by
    intro z hz
    obtain ⟨s, hs, rfl⟩ := List.mem_map.mp hz
    exact hpos s hs
  have hlenm : (slots.map weight).length = slots.length := List.length_map slots weight
  have hn : 0 < (effWeights (slots.map weight)).length := by
    rw [effWeights_length, hlenm]
    exact List.length_pos.mpr hne
  have hn2 : (effWeights (slots.map weight)).length < 65536 := by
    rw [effWeights_length, hlenm]
    exact hlen
  have heff : ∀ j < (effWeights (slots.map weight)).length,
      1 ≤ (effWeights (slots.map weight)).getD j 0 := by
    intro j hj
    rw [effWeights_length] at hj
    exact one_le_effWeights _ hmne hwpos j hj
  have htot : ∑ j in Finset.range (effWeights (slots.map weight)).length,
      (effWeights (slots.map weight)).getD j 0 = (effWeights (slots.map weight)).sum :=
    sum_range_getD _
  have htot1 : 1 ≤ (effWeights (slots.map weight)).sum :=
    one_le_sum_eff _ hmne hwpos
  obtain ⟨hl, hm, hc⟩ := fillLoop_counts (effWeights (slots.map weight))
    ((effWeights (slots.map weight)).sum) hn hn2 heff htot htot1
  refine ⟨_, New_ok_eq weight slots hne hlen hpos, rfl, hl, ?_, ?_⟩
  · intro x hx
    have := hm x hx
    rw [effWeights_length, hlenm] at this
    exact this
  · intro j hj
    have hj2 : j < (effWeights (slots.map weight)).length := by
      rw [effWeights_length, hlenm]
      exact hj
    exact hc j hj2

/-! ## Reference trace (specification side, for the refinement claim)

`IsSpecTrace` renders the spec's description of the compilation
algorithm: for each emitted position, every slot's credit is first
increased by that slot's effective weight; the emitted index is the
slot with the strictly greatest credit, ties broken towards the slot
appearing earliest in input order; then the reduced total `T` is
subtracted from the winner's credit. -/

theorem stepBest_first (eff : List Int) (cur : Nat → Int) :
    ∀ i < stepBest eff cur, addEff eff cur i < addEff eff cur (stepBest eff cur) :=
  fmiAux_first _ _

theorem fillLoop_isSpecTrace (eff : List Int) (tot : Int)
    (hn : 0 < eff.length) (hn2 : eff.length < 65536) :
    ∀ (k : Nat) (cur : Nat → Int), IsSpecTrace eff tot cur (fillLoop eff tot k cur) := by
  intro k
  induction k with
  | zero => intro cur; exact trivial
  | succ k ih =>
    intro cur
    have hmod : stepBest eff cur % 65536 = stepBest eff cur :=
      Nat.mod_eq_of_lt (lt_of_lt_of_le (stepBest_lt eff cur hn) (by omega))
    rw [fillLoop_succ, hmod]
    exact ⟨stepBest_lt eff cur hn, stepBest_max eff cur, stepBest_first eff cur,
      ih (stepCur eff tot cur)⟩

/-- The reference trace of a given length is unique: the winner at each
position is determined by the credits. -/
theorem specTrace_unique (eff : List Int) (T : Int) :
    ∀ (s₁ s₂ : List Nat) (cred : Nat → Int), s₁.length = s₂.length →
      IsSpecTrace eff T cred s₁ → IsSpecTrace eff T cred s₂ → s₁ = s₂ := by
  intro s₁
  induction s₁ with
  | nil =>
    intro s₂ cred hlen _ _
    cases s₂ with
    | nil => rfl
    | cons w s₂ => simp at hlen
  | cons w₁ s₁ ih =>
    intro s₂ cred hlen h₁ h₂
    cases s₂ with
    | nil => simp at hlen
    | cons w₂ s₂ =>
      obtain ⟨hw₁n, hmax₁, hfirst₁, htail₁⟩ := h₁
      obtain ⟨hw₂n, hmax₂, hfirst₂, htail₂⟩ := h₂
      have hw : w₁ = w₂ := by
        by_contra hne
        rcases Nat.lt_or_ge w₁ w₂ with h | h
        · exact absurd (hmax₁ w₂ hw₂n) (not_le.mpr (hfirst₂ w₁ h))
        · have h2 : w₂ < w₁ := by omega
          exact absurd (hmax₂ w₁ hw₁n) (not_le.mpr (hfirst₁ w₂ h2))
      subst hw
      have : s₁ = s₂ := ih s₂ _ (by simpa using hlen) htail₁ htail₂
      rw [this]

/-! ## Cyclic reading of the compiled cycle -/

theorem count_lt_length_of_mem_ne (seq : List Nat) (i j : Nat)
    (hj : j ∈ seq) (hne : j ≠ i) : seq.count i < seq.length := by
  induction seq with
  | nil => cases hj
  | cons x l ih =>
    rcases List.mem_cons.mp hj with h | h
    · have hxi : x ≠ i := h ▸ hne
      have h1 : (x :: l).count i = l.count i := by
        simp [List.count_cons, hxi]
      rw [h1]
      have := List.count_le_length i l
      simp only [List.length_cons]
      omega
    · have h2 := ih h
      have h3 : (x :: l).count i ≤ l.count i + 1 := by
        simp [List.count_cons]
        split <;> omega
      simp only [List.length_cons]
      omega

theorem run_le_count_aux (seq : List Nat) (i p m : Nat) (hT : 0 < seq.length)
    (hm : m ≤ seq.length)
    (hrun : ∀ t < m, seq.getD ((p + t) % seq.length) 0 = i) :
    m ≤ seq.count i := by
  have hrotlen : (seq.rotate (p % seq.length)).length = seq.length :=
    List.length_rotate seq _
  have htakelen : ((seq.rotate (p % seq.length)).take m).length = m := by
    rw [List.length_take, hrotlen]
    omega
  have htake : (seq.rotate (p % seq.length)).take m = List.replicate m i := by
    apply List.eq_replicate_iff.mpr
    refine ⟨htakelen, ?_⟩
    intro b hb
    obtain ⟨t, ht, hget⟩ := List.mem_iff_getElem.mp hb
    rw [htakelen] at ht
    rw [List.getElem_take] at hget
    rw [List.getElem_rotate] at hget
    have hidx : (t + p % seq.length) % seq.length = (p + t) % seq.length := by
      conv_rhs => rw [Nat.add_mod]
      have ht2 : t % seq.length = t := Nat.mod_eq_of_lt (by omega)
      rw [ht2, Nat.add_comm (p % seq.length) t]
    have hval := hrun t ht
    rw [← hidx] at hval
    rw [getD_eq_getElem seq _ 0 (Nat.mod_lt _ hT)] at hval
    rw [← hget, hval]
  have h1 : m ≤ (seq.rotate (p % seq.length)).count i := by
    have h2 : ((seq.rotate (p % seq.length)).take m).count i = m := by
      rw [htake]
      exact List.count_replicate_self i m
    calc m = ((seq.rotate (p % seq.length)).take m).count i := h2.symm
      _ ≤ (seq.rotate (p % seq.length)).count i :=
          List.Sublist.count_le (List.take_sublist m _) i
  have h3 : (seq.rotate (p % seq.length)).count i = seq.count i :=
    (List.rotate_perm seq (p % seq.length)).count_eq i
  omega

/-- No item can appear consecutively (in the infinite cyclic reading of
the compiled cycle, wrap included) more often than it appears in one
full cycle, provided some other value occurs in the cycle. -/
theorem run_le_count (seq : List Nat) (i p m : Nat) (hT : 0 < seq.length)
    (hrun : ∀ t < m, seq.getD ((p + t) % seq.length) 0 = i)
    (hother : ∃ j, j ∈ seq ∧ j ≠ i) :
    m ≤ seq.count i := by
  rcases le_or_lt m seq.length with hm | hm
  · exact run_le_count_aux seq i p m hT hm hrun
  · exfalso
    have h1 : seq.length ≤ seq.count i :=
      run_le_count_aux seq i p seq.length hT (Nat.le_refl _)
        (fun t ht => hrun t (by omega))
    obtain ⟨j, hj, hne⟩ := hother
    have := count_lt_length_of_mem_ne seq i j hj hne
    omega

/-- Every value occurring in the cycle shows up within any window of
`seq.length` consecutive cyclic reads, wherever the window starts. -/
theorem window_cover (seq : List Nat) (hT : 0 < seq.length) (i start : Nat)
    (hocc : i ∈ seq) :
    ∃ t < seq.length, seq.getD ((start + t) % seq.length) 0 = i := by
  obtain ⟨r, hr, hget⟩ := List.mem_iff_getElem.mp hocc
  have hs : start % seq.length < seq.length := Nat.mod_lt _ hT
  by_cases hcase : start % seq.length ≤ r
  · refine ⟨r - start % seq.length, by omega, ?_⟩
    have h1 : (start + (r - start % seq.length)) % seq.length = r := by
      rw [Nat.add_mod,
        Nat.mod_eq_of_lt (show r - start % seq.length < seq.length by omega)]
      have h2 : start % seq.length + (r - start % seq.length) = r := by omega
      rw [h2, Nat.mod_eq_of_lt hr]
    rw [h1, getD_eq_getElem seq r 0 hr, hget]
  · refine ⟨seq.length + r - start % seq.length, by omega, ?_⟩
    have h1 : (start + (seq.length + r - start % seq.length)) % seq.length = r := by
      rw [Nat.add_mod,
        Nat.mod_eq_of_lt (show seq.length + r - start % seq.length < seq.length by omega)]
      have h2 : start % seq.length + (seq.length + r - start % seq.length)
          = seq.length + r := by omega
      rw [h2, Nat.add_mod_left, Nat.mod_eq_of_lt hr]
    rw [h1, getD_eq_getElem seq r 0 hr, hget]

/-! ## Scale invariance of the compilation -/

theorem allGcd_smul (k : Int) (w : List Int) :
    allGcd (w.map (fun z => k * z)) = k.natAbs * allGcd w := by
  induction w with
  | nil => simp [allGcd]
  | cons z l ih =>
    show Nat.gcd (k * z).natAbs (allGcd (l.map (fun z => k * z)))
        = k.natAbs * Nat.gcd z.natAbs (allGcd l)
    rw [ih, Int.natAbs_mul, Nat.gcd_mul_left]

theorem effWeights_smul (k : Int) (hk : 1 ≤ k) (w : List Int) (hne : w ≠ [])
    (hpos : ∀ z ∈ w, 0 < z) :
    effWeights (w.map (fun z => k * z)) = effWeights w := by
  rw [effWeights, effWeights, List.map_map]
  apply List.map_congr_left
  intro z hz
  show (k * z).tdiv ((allGcd (w.map (fun z => k * z)) : Nat) : Int)
      = z.tdiv ((allGcd w : Nat) : Int)
  rw [allGcd_smul]
  obtain ⟨q, hq⟩ := allGcd_dvd w z hz
  have hg : 0 < allGcd w := allGcd_pos w hne hpos
  have hkn : ((k.natAbs : Nat) : Int) = k := Int.natAbs_of_nonneg (by omega)
  have hcast : (((k.natAbs * allGcd w : Nat)) : Int) = k * ((allGcd w : Nat) : Int) := by
    push_cast
    rw [abs_of_nonneg (show (0 : Int) ≤ k by omega)]
  rw [hcast, hq]
  have hgz : ((allGcd w : Nat) : Int) ≠ 0 := by
    simp only [ne_eq, Nat.cast_eq_zero]
    omega
  have hkgz : k * ((allGcd w : Nat) : Int) ≠ 0 := by
    apply mul_ne_zero (by omega) hgz
  rw [show k * (((allGcd w : Nat) : Int) * q) = k * ((allGcd w : Nat) : Int) * q by ring,
    Int.mul_tdiv_cancel_left q hkgz, Int.mul_tdiv_cancel_left q hgz]

/-- Scaling all weights by a common positive factor produces the exact
same construction result. -/
theorem New_smul {α : Type} (weight : α → Int) (slots : List α) (k : Int) (hk : 1 ≤ k)
    (hne : slots ≠ []) (hlen : slots.length < 65536)
    (hpos : ∀ s ∈ slots, 0 < weight s) :
    New (fun s => k * weight s) slots = New weight slots := by
  have hpos2 : ∀ s ∈ slots, 0 < k * weight s :=
    fun s hs => mul_pos (by omega) (hpos s hs)
  have hmne : slots.map weight ≠ [] := fun h => hne (List.map_eq_nil_iff.mp h)
  have hwpos : ∀ z ∈ slots.map weight, 0 < z := by
    intro z hz
    obtain ⟨s, hs, rfl⟩ := List.mem_map.mp hz
    exact hpos s hs
  rw [New_ok_eq weight slots hne hlen hpos,
    New_ok_eq (fun s => k * weight s) slots hne hlen hpos2]
  have hmap : slots.map (fun s => k * weight s) = (slots.map weight).map (fun z => k * z) := by
    rw [List.map_map]
    rfl
  rw [hmap, effWeights_smul k hk _ hmne hwpos]

/-! ## Selection (`Next`) lemmas -/

theorem Next?_isSome {α : Type} (w : WRR α) (hT : 0 < w.seq.length)
    (hmem : ∀ x ∈ w.seq, x < w.slots.length) (c : Nat) : (Next? w c).isSome := by
  have hidx : nextIndex w.seq.length c < w.seq.length := Nat.mod_lt _ hT
  have hj : w.seq[nextIndex w.seq.length c] < w.slots.length :=
    hmem _ (List.getElem_mem hidx)
  rw [Next?, List.getElem?_eq_getElem hidx]
  simp [List.getElem?_eq_getElem hj]

theorem Next?_formula {α : Type} (w : WRR α) (c : Nat)
    (hT : 0 < w.seq.length) (h1 : 1 ≤ c) (h2 : c ≤ 2 ^ 64) :
    Next? w c = w.slots[w.seq.getD ((c - 1) % w.seq.length) 0]? := by
  have hc : (c - 1) % 2 ^ 64 = c - 1 := Nat.mod_eq_of_lt (by omega)
  have hidx : (c - 1) % w.seq.length < w.seq.length := Nat.mod_lt _ hT
  rw [Next?, nextIndex, hc, List.getElem?_eq_getElem hidx,
    getD_eq_getElem w.seq _ 0 hidx]

/-! ## Per-position winners -/

theorem curAt_shift (eff : List Int) (tot : Int) (cur0 : Nat → Int) :
    ∀ m : Nat, curAt eff tot (stepCur eff tot cur0) m = curAt eff tot cur0 (m + 1) := by
  intro m
  induction m with
  | zero => rfl
  | succ m ih =>
    show stepCur eff tot (curAt eff tot (stepCur eff tot cur0) m)
        = stepCur eff tot (curAt eff tot cur0 (m + 1))
    rw [ih]

theorem fillLoop_getD (eff : List Int) (tot : Int) :
    ∀ (k m : Nat) (cur : Nat → Int), m < k →
      (fillLoop eff tot k cur).getD m 0
        = stepBest eff (curAt eff tot cur m) % 65536 := by
  intro k
  induction k with
  | zero => intro m cur h; omega
  | succ k ih =>
    intro m cur h
    rw [fillLoop_succ]
    match m with
    | 0 => rfl
    | m + 1 =>
      have hstep : (stepBest eff cur % 65536
            :: fillLoop eff tot k (stepCur eff tot cur)).getD (m + 1) 0
          = (fillLoop eff tot k (stepCur eff tot cur)).getD m 0 := by
        simp
      rw [hstep, ih m (stepCur eff tot cur) (by omega), curAt_shift]

/-! ## Claim theorems -/

/-- C1: for every non-empty input list of fewer than 65536 items whose
weights are all strictly positive, `New` succeeds; the number of
occurrences of index `i` in the compiled cycle equals slot `i`'s
effective weight (its weight divided by the GCD of all weights)
exactly, and the cycle length equals the sum of the effective
weights. -/
theorem c1_proportionality {α : Type} (weight : α → Int) (slots : List α)
    (hne : slots ≠ []) (hlen : slots.length < 65536)
    (hpos : ∀ s ∈ slots, 0 < weight s) :
    ∃ sched : WRR α, New weight slots = .ok sched ∧
      ((sched.seq.length : Nat) : Int) = (effWeights (slots.map weight)).sum ∧
      ∀ i < slots.length,
        ((sched.seq.count i : Nat) : Int)
          = ((slots.map weight).getD i 0).tdiv ((allGcd (slots.map weight) : Nat) : Int) := by
  have hmne : slots.map weight ≠ [] := fun h => hne (List.map_eq_nil_iff.mp h)
  have hwpos : ∀ z ∈ slots.map weight, 0 < z := by
    intro z hz
    obtain ⟨s, hs, rfl⟩ := List.mem_map.mp hz
    exact hpos s hs
  obtain ⟨sched, hok, _, hlen2, _, hcount⟩ := New_spec weight slots hne hlen hpos
  refine ⟨sched, hok, ?_, ?_⟩
  · rw [hlen2]
    have h1 := one_le_sum_eff (slots.map weight) hmne hwpos
    exact Int.toNat_of_nonneg (by omega)
  · intro i hi
    rw [hcount i hi,
      effWeights_getD (slots.map weight) i (by rw [List.length_map]; exact hi)]

theorem c1_witness :
    ∃ sched : WRR Int, New (fun x : Int => x) [3, 1] = .ok sched ∧
      ((sched.seq.length : Nat) : Int) = (effWeights ([3, 1].map (fun x : Int => x))).sum ∧
      ∀ i < ([3, 1] : List Int).length,
        ((sched.seq.count i : Nat) : Int)
          = (([3, 1].map (fun x : Int => x)).getD i 0).tdiv
              ((allGcd ([3, 1].map (fun x : Int => x)) : Nat) : Int) :=
  c1_proportionality (fun x : Int => x) [3, 1] (by decide) (by decide) (by decide)

/-- C2: the compiled cycle is exactly the reference nginx smooth-WRR
sequence described in the spec: positions are filled in order; at each
position every slot's credit is increased by its effective weight, the
slot with the strictly greatest credit wins (earliest input order on
ties), its index is emitted, and the reduced total is subtracted from
the winner's credit; credits start at zero.  The reference trace of the
compiled length is unique, so the cycle equals it. -/
theorem c2_reference_sequence {α : Type} (weight : α → Int) (slots : List α)
    (hne : slots ≠ []) (hlen : slots.length < 65536)
    (hpos : ∀ s ∈ slots, 0 < weight s) :
    ∃ sched : WRR α, New weight slots = .ok sched ∧
      IsSpecTrace (effWeights (slots.map weight))
        ((effWeights (slots.map weight)).sum) (fun _ => 0) sched.seq ∧
      (∀ s : List Nat, s.length = sched.seq.length →
        IsSpecTrace (effWeights (slots.map weight))
          ((effWeights (slots.map weight)).sum) (fun _ => 0) s → s = sched.seq) := by
  have hn : 0 < (effWeights (slots.map weight)).length := by
    rw [effWeights_length, List.length_map]
    exact List.length_pos.mpr hne
  have hn2 : (effWeights (slots.map weight)).length < 65536 := by
    rw [effWeights_length, List.length_map]
    exact hlen
  refine ⟨_, New_ok_eq weight slots hne hlen hpos, ?_, ?_⟩
  · exact fillLoop_isSpecTrace _ _ hn hn2 _ _
  · intro s hslen hs
    exact specTrace_unique _ _ s _ (fun _ => 0) hslen hs
      (fillLoop_isSpecTrace _ _ hn hn2 _ _)

theorem c2_witness :
    ∃ sched : WRR Int, New (fun x : Int => x) [3, 1] = .ok sched ∧
      IsSpecTrace (effWeights ([3, 1].map (fun x : Int => x)))
        ((effWeights ([3, 1].map (fun x : Int => x))).sum) (fun _ => 0) sched.seq ∧
      (∀ s : List Nat, s.length = sched.seq.length →
        IsSpecTrace (effWeights ([3, 1].map (fun x : Int => x)))
          ((effWeights ([3, 1].map (fun x : Int => x))).sum) (fun _ => 0) s →
          s = sched.seq) :=
  c2_reference_sequence (fun x : Int => x) [3, 1] (by decide) (by decide) (by decide)

/-- C3 counterexample: with weights `[3, 1]` (raw total 4) the compiled
cycle is `[0, 0, 1, 0]`; read cyclically from position 3 it yields item
0 three times consecutively, exceeding the claimed bound
`ceil(2 * 3 / 4) = 2`. -/
theorem c3_counterexample :
    (∀ t < 3, (New (fun x : Int => x) [3, 1]).map
        (fun w => w.seq.getD ((3 + t) % w.seq.length) 0) = .ok 0) ∧
    ¬ (3 ≤ (2 * 3 + (3 + 1) - 1) / (3 + 1)) := by decide

/-- C3 (amended): in the infinite cyclic reading of the compiled cycle
(wrap included), an item `i` never appears more than its effective
weight (`weight i` divided by the GCD of all weights) times
consecutively, for every scheduler with at least two slots; the
originally claimed bound `ceil(2 * weight i / T_raw)` does not hold. -/
theorem c3_run_bound {α : Type} (weight : α → Int) (slots : List α)
    (hne : slots ≠ []) (hlen : slots.length < 65536)
    (hpos : ∀ s ∈ slots, 0 < weight s) (htwo : 2 ≤ slots.length) :
    ∃ sched : WRR α, New weight slots = .ok sched ∧
      ∀ i p m : Nat,
        (∀ t < m, sched.seq.getD ((p + t) % sched.seq.length) 0 = i) →
        ((m : Nat) : Int) ≤ (effWeights (slots.map weight)).getD i 0 := by
  have hmne : slots.map weight ≠ [] := fun h => hne (List.map_eq_nil_iff.mp h)
  have hwpos : ∀ z ∈ slots.map weight, 0 < z := by
    intro z hz
    obtain ⟨s, hs, rfl⟩ := List.mem_map.mp hz
    exact hpos s hs
  obtain ⟨sched, hok, _, hlen2, hmem, hcount⟩ := New_spec weight slots hne hlen hpos
  have htot1 := one_le_sum_eff (slots.map weight) hmne hwpos
  have hT : 0 < sched.seq.length := by
    rw [hlen2]
    omega
  have hcnt1 : ∀ j, j < slots.length → 1 ≤ sched.seq.count j := by
    intro j hj
    have h1 := hcount j hj
    have h2 := one_le_effWeights (slots.map weight) hmne hwpos j
      (by rw [List.length_map]; exact hj)
    omega
  refine ⟨sched, hok, ?_⟩
  intro i p m hrun
  have hother : ∃ j, j ∈ sched.seq ∧ j ≠ i := by
    refine ⟨if i = 0 then 1 else 0, ?_, ?_⟩
    · apply List.count_pos_iff.mp
      split
      · have := hcnt1 1 (by omega)
        omega
      · have := hcnt1 0 (by omega)
        omega
    · split <;> omega
  have hm := run_le_count sched.seq i p m hT hrun hother
  by_cases hi : i < slots.length
  · rw [← hcount i hi]
    exact_mod_cast hm
  · have hnotmem : i ∉ sched.seq := fun hmm => hi (hmem i hmm)
    have hz : sched.seq.count i = 0 := List.count_eq_zero.mpr hnotmem
    have hoob : (effWeights (slots.map weight)).getD i 0 = 0 := by
      apply getD_oob
      rw [effWeights_length, List.length_map]
      omega
    rw [hoob]
    rw [hz] at hm
    simp only [Nat.le_zero] at hm
    rw [hm]
    simp

theorem c3_witness :
    ∃ sched : WRR Int, New (fun x : Int => x) [3, 1] = .ok sched ∧
      ∀ i p m : Nat,
        (∀ t < m, sched.seq.getD ((p + t) % sched.seq.length) 0 = i) →
        ((m : Nat) : Int) ≤ (effWeights ([3, 1].map (fun x : Int => x))).getD i 0 :=
  c3_run_bound (fun x : Int => x) [3, 1] (by decide) (by decide) (by decide) (by decide)

/-- C8: every contiguous window of `2 * T` consecutive cyclic positions,
at any starting offset, contains every slot index (in fact a window of
`T` already does). -/
theorem c8_window_coverage {α : Type} (weight : α → Int) (slots : List α)
    (hne : slots ≠ []) (hlen : slots.length < 65536)
    (hpos : ∀ s ∈ slots, 0 < weight s) :
    ∃ sched : WRR α, New weight slots = .ok sched ∧
      ∀ start : Nat, ∀ i < slots.length,
        ∃ t < 2 * sched.seq.length,
          sched.seq.getD ((start + t) % sched.seq.length) 0 = i := by
  have hmne : slots.map weight ≠ [] := fun h => hne (List.map_eq_nil_iff.mp h)
  have hwpos : ∀ z ∈ slots.map weight, 0 < z := by
    intro z hz
    obtain ⟨s, hs, rfl⟩ := List.mem_map.mp hz
    exact hpos s hs
  obtain ⟨sched, hok, _, hlen2, _, hcount⟩ := New_spec weight slots hne hlen hpos
  have htot1 := one_le_sum_eff (slots.map weight) hmne hwpos
  have hT : 0 < sched.seq.length := by
    rw [hlen2]
    omega
  refine ⟨sched, hok, ?_⟩
  intro start i hi
  have h1 := hcount i hi
  have h2 := one_le_effWeights (slots.map weight) hmne hwpos i
    (by rw [List.length_map]; exact hi)
  have hmemi : i ∈ sched.seq := by
    apply List.count_pos_iff.mp
    omega
  obtain ⟨t, ht, hval⟩ := window_cover sched.seq hT i start hmemi
  exact ⟨t, by omega, hval⟩

theorem c8_witness :
    ∃ sched : WRR Int, New (fun x : Int => x) [5, 3, 2] = .ok sched ∧
      ∀ start : Nat, ∀ i < ([5, 3, 2] : List Int).length,
        ∃ t < 2 * sched.seq.length,
          sched.seq.getD ((start + t) % sched.seq.length) 0 = i :=
  c8_window_coverage (fun x : Int => x) [5, 3, 2] (by decide) (by decide) (by decide)

/-- C4: scaling every weight by a common positive factor `k` produces
the identical construction result: same compiled cycle (same indices,
same order, same length), same retained slots, and the identical
call-for-call selection stream. -/
theorem c4_scale_invariance {α : Type} (weight : α → Int) (slots : List α) (k : Int)
    (hk : 1 ≤ k) (hne : slots ≠ []) (hlen : slots.length < 65536)
    (hpos : ∀ s ∈ slots, 0 < weight s) :
    ∃ s₁ s₂ : WRR α, New weight slots = .ok s₁ ∧
      New (fun s => k * weight s) slots = .ok s₂ ∧
      s₂.seq = s₁.seq ∧ s₂.slots = s₁.slots ∧
      ∀ c : Nat, Next? s₂ c = Next? s₁ c := by
  refine ⟨_, _, New_ok_eq weight slots hne hlen hpos, ?_, rfl, rfl, fun _ => rfl⟩
  rw [New_smul weight slots k hk hne hlen hpos]
  exact New_ok_eq weight slots hne hlen hpos

theorem c4_witness :
    ∃ s₁ s₂ : WRR Int, New (fun x : Int => x) [1, 2] = .ok s₁ ∧
      New (fun s : Int => 100 * s) [1, 2] = .ok s₂ ∧
      s₂.seq = s₁.seq ∧ s₂.slots = s₁.slots ∧
      ∀ c : Nat, Next? s₂ c = Next? s₁ c :=
  c4_scale_invariance (fun x : Int => x) [1, 2] 100 (by decide) (by decide) (by decide)
    (by decide)

/-- C5 counterexample: with three slots of weight 1 (reduced total 3)
and items 10, 20, 30, the call numbered `2 ^ 64 + 1` — the first call
after the unsigned 64-bit cursor has wrapped — returns item 10 (the
wrapped counter restarts the cycle at position 0), whereas the claimed
formula `slots[seq[(c - 1) mod T]]` selects position `2 ^ 64 mod 3 = 1`,
i.e. item 20. -/
theorem c5_counterexample :
    ((New (fun _ : Int => 1) [10, 20, 30]).map fun w =>
      (Next? w (2 ^ 64 + 1),
        w.slots[w.seq.getD ((2 ^ 64 + 1 - 1) % w.seq.length) 0]?))
      = .ok (some 10, some 20) ∧
    (some (10 : Int) ≠ some 20) := by
  constructor
  · decide
  · decide

/-- C5 (amended): for every call number `c` with `1 ≤ c ≤ 2 ^ 64`, the
c-th call returns `slots[seq[(c - 1) mod T]]`; in particular, as long
as `2 * T ≤ 2 ^ 64`, the block of `T` calls starting at call `T + 1`
is identical, call for call, to the block starting at call 1.  Beyond
`2 ^ 64` calls the formula must be taken modulo the wrapped counter. -/
theorem c5_next_formula {α : Type} (weight : α → Int) (slots : List α)
    (hne : slots ≠ []) (hlen : slots.length < 65536)
    (hpos : ∀ s ∈ slots, 0 < weight s) :
    ∃ sched : WRR α, New weight slots = .ok sched ∧
      (∀ c : Nat, 1 ≤ c → c ≤ 2 ^ 64 →
        Next? sched c = sched.slots[sched.seq.getD ((c - 1) % sched.seq.length) 0]?) ∧
      (2 * sched.seq.length ≤ 2 ^ 64 →
        ∀ t < sched.seq.length,
          Next? sched (sched.seq.length + 1 + t) = Next? sched (1 + t)) := by
  have hmne : slots.map weight ≠ [] := fun h => hne (List.map_eq_nil_iff.mp h)
  have hwpos : ∀ z ∈ slots.map weight, 0 < z := by
    intro z hz
    obtain ⟨s, hs, rfl⟩ := List.mem_map.mp hz
    exact hpos s hs
  obtain ⟨sched, hok, _, hlen2, _, _⟩ := New_spec weight slots hne hlen hpos
  have htot1 := one_le_sum_eff (slots.map weight) hmne hwpos
  have hT : 0 < sched.seq.length := by
    rw [hlen2]
    omega
  refine ⟨sched, hok, fun c h1 h2 => Next?_formula sched c hT h1 h2, ?_⟩
  intro hwrap t ht
  rw [Next?_formula sched (sched.seq.length + 1 + t) hT (by omega) (by omega),
    Next?_formula sched (1 + t) hT (by omega) (by omega)]
  have h1 : sched.seq.length + 1 + t - 1 = sched.seq.length + t := by omega
  have h2 : 1 + t - 1 = t := by omega
  rw [h1, h2, Nat.add_mod_left, Nat.mod_eq_of_lt ht]

theorem c5_witness :
    ∃ sched : WRR Int, New (fun _ : Int => 1) [10, 20, 30] = .ok sched ∧
      (∀ c : Nat, 1 ≤ c → c ≤ 2 ^ 64 →
        Next? sched c = sched.slots[sched.seq.getD ((c - 1) % sched.seq.length) 0]?) ∧
      (2 * sched.seq.length ≤ 2 ^ 64 →
        ∀ t < sched.seq.length,
          Next? sched (sched.seq.length + 1 + t) = Next? sched (1 + t)) :=
  c5_next_formula (fun _ : Int => 1) [10, 20, 30] (by decide) (by decide) (by decide)

/-- C6: once `New` succeeds, selection can never fail: the compiled
cycle is non-empty (the modulo divisor is non-zero) and both indexings
are in bounds for every call number, including every call made after
the unsigned 64-bit counter has wrapped. -/
theorem c6_next_never_fails {α : Type} (weight : α → Int) (slots : List α)
    (hne : slots ≠ []) (hlen : slots.length < 65536)
    (hpos : ∀ s ∈ slots, 0 < weight s) :
    ∃ sched : WRR α, New weight slots = .ok sched ∧ 0 < sched.seq.length ∧
      ∀ c : Nat, (Next? sched c).isSome := by
  have hmne : slots.map weight ≠ [] := fun h => hne (List.map_eq_nil_iff.mp h)
  have hwpos : ∀ z ∈ slots.map weight, 0 < z := by
    intro z hz
    obtain ⟨s, hs, rfl⟩ := List.mem_map.mp hz
    exact hpos s hs
  obtain ⟨sched, hok, hsl, hlen2, hmem, _⟩ := New_spec weight slots hne hlen hpos
  have htot1 := one_le_sum_eff (slots.map weight) hmne hwpos
  have hT : 0 < sched.seq.length := by
    rw [hlen2]
    omega
  refine ⟨sched, hok, hT, fun c => Next?_isSome sched hT ?_ c⟩
  intro x hx
  rw [hsl]
  exact hmem x hx

theorem c6_witness :
    ∃ sched : WRR Int, New (fun x : Int => x) [3, 1] = .ok sched ∧
      0 < sched.seq.length ∧ ∀ c : Nat, (Next? sched c).isSome :=
  c6_next_never_fails (fun x : Int => x) [3, 1] (by decide) (by decide) (by decide)

/-- C7: `New` returns an error (and by construction no scheduler) if
and only if the input is empty, the slot count is at least 65536, or
some slot's weight is non-positive; and when the length checks pass and
slot `i0` is the first slot with a non-positive weight, the error names
that slot's position and its weight value. -/
theorem c7_error_conditions {α : Type} (weight : α → Int) (slots : List α) :
    ((∃ e, New weight slots = .error e) ↔
      slots = [] ∨ 65536 ≤ slots.length ∨ ∃ s ∈ slots, weight s ≤ 0) ∧
    (∀ i0 : Nat, i0 < slots.length → slots.length < 65536 →
      (∀ j < i0, 0 < (slots.map weight).getD j 0) →
      (slots.map weight).getD i0 0 ≤ 0 →
      New weight slots = .error
        ("wrr: slot index " ++ toString i0 ++ ": bad weight "
          ++ toString ((slots.map weight).getD i0 0))) := by
  constructor
  · by_cases h0 : slots.length = 0
    · constructor
      · intro _
        exact Or.inl (List.length_eq_zero.mp h0)
      · intro _
        exact ⟨_, by simp only [New]; rw [if_pos h0]⟩
    · by_cases h1 : 65536 ≤ slots.length
      · constructor
        · intro _
          exact Or.inr (Or.inl h1)
        · intro _
          exact ⟨_, by simp only [New]; rw [if_neg h0, if_pos h1]⟩
      · constructor
        · rintro ⟨e, he⟩
          refine Or.inr (Or.inr ?_)
          by_contra hcon
          push_neg at hcon
          have hwpos : ∀ z ∈ slots.map weight, 0 < z := by
            intro z hz
            obtain ⟨s, hs, rfl⟩ := List.mem_map.mp hz
            have := hcon s hs
            omega
          simp only [New] at he
          rw [if_neg h0, if_neg h1, checkWeights_ok _ 0 hwpos] at he
          exact Except.noConfusion he
        · rintro (h | h | ⟨s, hs, hws⟩)
          · exact absurd (by rw [h]; rfl) h0
          · exact absurd h h1
          · obtain ⟨e, he⟩ := (checkWeights_error_iff (slots.map weight) 0).mpr
              ⟨weight s, List.mem_map_of_mem weight hs, hws⟩
            refine ⟨e, ?_⟩
            simp only [New]
            rw [if_neg h0, if_neg h1, he]
  · intro i0 hi0 hlen hfirst hbad
    have h0 : slots.length ≠ 0 := by omega
    simp only [New]
    rw [if_neg h0, if_neg (by omega),
      checkWeights_error (slots.map weight) 0 i0
        (by rw [List.length_map]; exact hi0) hfirst hbad]
    rw [Nat.zero_add]

theorem c7_witness :
    New (fun x : Int => x) [5, -2] = .error "wrr: slot index 1: bad weight -2" :=
  (c7_error_conditions (fun x : Int => x) [5, -2]).2 1 (by decide) (by decide)
    (by decide) (by decide)

/-- C9 counterexample: the empty-input error message produced by the
code is "wrr: no slots to weight", not the claimed
"no slots to schedule." -/
theorem c9_counterexample :
    New (fun x : Int => x) ([] : List Int) = .error "wrr: no slots to weight" ∧
    "wrr: no slots to weight" ≠ "no slots to schedule." := by
  constructor
  · rfl
  · decide

/-- C9 (amended): constructing a scheduler from an empty input
collection fails with the error message "wrr: no slots to weight". -/
theorem c9_empty_error {α : Type} (weight : α → Int) :
    New weight ([] : List α) = .error "wrr: no slots to weight" := rfl

/-- C10: at every cycle position the winning slot index is strictly
less than the slot count; since the slot count is below 65536, the
narrowing conversion `uint16(best)` (modelled as `% 65536`) never
truncates, and every entry stored in the compiled cycle is that winner,
a valid index into the slots array. -/
theorem c10_winner_bounds {α : Type} (weight : α → Int) (slots : List α)
    (hne : slots ≠ []) (hlen : slots.length < 65536)
    (hpos : ∀ s ∈ slots, 0 < weight s) :
    ∃ sched : WRR α, New weight slots = .ok sched ∧
      ∀ m < sched.seq.length, ∃ best : Nat,
        best = stepBest (effWeights (slots.map weight))
          (curAt (effWeights (slots.map weight))
            ((effWeights (slots.map weight)).sum) (fun _ => 0) m) ∧
        best < slots.length ∧ best % 65536 = best ∧
        sched.seq.getD m 0 = best % 65536 := by
  have hmne : slots.map weight ≠ [] := fun h => hne (List.map_eq_nil_iff.mp h)
  have hwpos : ∀ z ∈ slots.map weight, 0 < z := by
    intro z hz
    obtain ⟨s, hs, rfl⟩ := List.mem_map.mp hz
    exact hpos s hs
  obtain ⟨sched, hok, _, hlen2, _, _⟩ := New_spec weight slots hne hlen hpos
  have hok2 := New_ok_eq weight slots hne hlen hpos
  have hseq : sched.seq
      = fillLoop (effWeights (slots.map weight)) ((effWeights (slots.map weight)).sum)
          ((effWeights (slots.map weight)).sum).toNat (fun _ => 0) := by
    rw [hok] at hok2
    cases hok2
    rfl
  have hn : 0 < (effWeights (slots.map weight)).length := by
    rw [effWeights_length, List.length_map]
    exact List.length_pos.mpr hne
  refine ⟨sched, hok, ?_⟩
  intro m hm
  refine ⟨_, rfl, ?_, ?_, ?_⟩
  · have h := stepBest_lt (effWeights (slots.map weight))
      (curAt (effWeights (slots.map weight))
        ((effWeights (slots.map weight)).sum) (fun _ => 0) m) hn
    rw [effWeights_length, List.length_map] at h
    exact h
  · apply Nat.mod_eq_of_lt
    have h := stepBest_lt (effWeights (slots.map weight))
      (curAt (effWeights (slots.map weight))
        ((effWeights (slots.map weight)).sum) (fun _ => 0) m) hn
    rw [effWeights_length, List.length_map] at h
    omega
  · rw [hseq]
    apply fillLoop_getD
    rw [hlen2] at hm
    exact hm

theorem c10_witness :
    ∃ sched : WRR Int, New (fun x : Int => x) [5, 3, 2] = .ok sched ∧
      ∀ m < sched.seq.length, ∃ best : Nat,
        best = stepBest (effWeights ([5, 3, 2].map (fun x : Int => x)))
          (curAt (effWeights ([5, 3, 2].map (fun x : Int => x)))
            ((effWeights ([5, 3, 2].map (fun x : Int => x))).sum) (fun _ => 0) m) ∧
        best < ([5, 3, 2] : List Int).length ∧ best % 65536 = best ∧
        sched.seq.getD m 0 = best % 65536 :=
  c10_winner_bounds (fun x : Int => x) [5, 3, 2] (by decide) (by decide) (by decide)

end Wrr
